import Mathlib

/-!
# Infix-to-postfix converter and postfix tracer (`src/output/merged.c`)

A shallow embedding of the C program: the classifier `isOperator`, the table
`getPriority`, the stack primitives `push` and `pop`, and the three loops of
`main` (normalisation of minus signs, conversion to postfix, trace of the
postfix string).

Representation choices.

* `char` is `Char`; a C string is the `List Char` of its characters before the
  terminating NUL.
* The global `stack[100]` / `top` pair is a `List Char` whose head is
  `stack[top]` and whose length is `top + 1`; `top == -1` is the empty list.
  Cells above `top` are never read before `push` overwrites them, so the list
  carries everything the program can observe.
* `postfixForm[0 .. k)` is a `List Char`; `postfixForm[k++] = x` appends `x`.
* `inputString` is updated in place by the first loop; the model uses
  `List.set` at the loop index.
* A loop that cannot end (`while ((x = pop()) != '(')` on a stack without `(`)
  yields `none`.
* The program never compares an index with the size of a buffer and has no
  error exit. The lists of the model can have any length; `capacity` is the
  size of the three arrays and serves to state which writes stay inside them.
  A write outside an array is undefined in C, so what the list functions
  compute describes the program for the expressions whose writes stay inside
  the arrays: those of at most 99 characters (`within_capacity`).
-/

namespace CPreprocessor

/-! ## Classification and priority -/

/-- `int isOperator(char x)`: the nine characters of the `switch` give 1. -/
def isOperator (x : Char) : Bool :=
  x = '(' || x = ')' || x = '^' || x = '%' || x = '/' || x = '*' || x = '+' || x = '-' || x = '='

/-- `int getPriority(char x)`: the `switch` table, with 11 as `default`. -/
def getPriority (x : Char) : Nat :=
  if x = '(' then 0
  else if x = '_' then 1
  else if x = '^' then 2
  else if x = '%' then 3
  else if x = '/' then 4
  else if x = '*' then 5
  else if x = '+' then 6
  else if x = '-' then 7
  else if x = ')' then 8
  else if x = '=' then 9
  else if x = '$' then 10
  else 11

/-! ## Stack primitives -/

/-- `void push(char x)`: `stack[++top] = x`. -/
def push (x : Char) (stack : List Char) : List Char := x :: stack

/-- `char pop()`: the top element and the shortened stack when `top >= 0`,
the character `$` and the unchanged (empty) stack otherwise. -/
def pop (stack : List Char) : Char × List Char :=
  match stack with
  | x :: rest => (x, rest)
  | [] => ('$', [])

/-! ## First loop: rewriting of minus signs -/

/-- Body of the first `for` loop at index `i`: `inputString[i]` becomes `_`
when it is `-` and `i == 0` or `isOperator(inputString[i-1])`. -/
def normalizeStep (s : List Char) (i : Nat) : List Char :=
  if s[i]? = some '-' ∧ (i = 0 ∨ (s[i - 1]?).any isOperator = true) then s.set i '_' else s

/-- The first `for` loop: `normalizeStep` at `i = 0, 1, ..., length - 1`, in place. -/
def normalize (s : List Char) : List Char :=
  (List.range s.length).foldl normalizeStep s

/-- The first loop as a left-to-right pass: `prev` is the character already
stored at index `i - 1` (`none` at index 0). Proved equal to `normalize` in
`normalize_eq_normalizeFrom`. -/
def normalizeFrom (prev : Option Char) : List Char → List Char
  | [] => []
  | c :: rest =>
    let c1 := if c = '-' ∧ prev.all isOperator = true then '_' else c
    c1 :: normalizeFrom (some c1) rest

/-! ## Second loop: conversion to postfix -/

/-- State of the conversion: the shared stack and the filled part of `postfixForm`. -/
structure ConvState where
  stack : List Char
  postfixForm : List Char
  deriving DecidableEq, Repr

/-- The loop `while ((x = pop()) != '(') postfixForm[k++] = x;`.
On the empty stack `pop` returns `$` and leaves the stack empty, so the loop
repeats the same state for ever: `none`. -/
def popUntilParen : List Char → List Char → Option ConvState
  | [], _ => none
  | x :: rest, out => if x = '(' then some ⟨rest, out⟩ else popUntilParen rest (out ++ [x])

/-- Body of the second `for` loop for the character `c = inputString[i]`. -/
def convStep (st : ConvState) (c : Char) : Option ConvState :=
  if isOperator c then
    if st.stack.length ≤ 1 ∨ st.stack.head? = some '(' ∨ c = '(' then
      some ⟨push c st.stack, st.postfixForm⟩
    else if c = ')' then
      popUntilParen st.stack st.postfixForm
    else if c = '_' then
      some ⟨st.stack, st.postfixForm ++ [c]⟩
    else
      match st.stack with
      | [] => none -- not reached: `top > 0` on this path
      | t :: below =>
        -- `getPriority(stack[top--])`: the top is read and `top` is decremented
        if getPriority c < getPriority t then
          some ⟨push c below, st.postfixForm⟩
        else
          some ⟨push c (pop below).2, st.postfixForm ++ [(pop below).1]⟩
  else
    some ⟨st.stack, st.postfixForm ++ [c]⟩

/-- The second `for` loop over the (normalised) input. -/
def convLoop : ConvState → List Char → Option ConvState
  | st, [] => some st
  | st, c :: rest => (convStep st c).bind fun st1 => convLoop st1 rest

/-- The loop `while ((x = pop()) != '$') postfixForm[k++] = x;`. It always
ends: on the empty stack `pop` returns `$`. -/
def drain : List Char → List Char → ConvState
  | [], out => ⟨[], out⟩
  | x :: rest, out => if x = '$' then ⟨rest, out⟩ else drain rest (out ++ [x])

/-- Conversion of a normalised string: `push('$')`, the second `for` loop and
the final drain. The result holds the stack left behind and the postfix string. -/
def convert (s : List Char) : Option ConvState :=
  (convLoop ⟨push '$' [], []⟩ s).map fun st => drain st.stack st.postfixForm

/-- The string printed after `Postfix : ` for the raw input `s`. -/
def postfixOf (s : List Char) : Option (List Char) :=
  (convert (normalize s)).map ConvState.postfixForm

/-! ## Third loop: the trace -/

/-- One line printed by the third loop. -/
inductive TraceLine where
  /-- `printf("%s\t%c\t%c\n", "Uminus", first, second)` -/
  | uminus (first second : Char)
  /-- `printf("%c\t\t%c\t%c\n", op, first, third)` -/
  | binary (op first third : Char)
  deriving DecidableEq, Repr

/-- The characters a trace line puts on the output. -/
def TraceLine.render : TraceLine → List Char
  | .uminus first second => "Uminus".toList ++ ['\t', first, '\t', second, '\n']
  | .binary op first third => [op, '\t', '\t', first, '\t', third, '\n']

/-- State of the third loop: the shared stack and the lines printed so far. -/
structure EvalState where
  stack : List Char
  trace : List TraceLine
  deriving DecidableEq, Repr

/-- Body of the third `for` loop for the character `c = postfixForm[i]`. -/
def evalStep (st : EvalState) (c : Char) : EvalState :=
  if !isOperator c then
    ⟨push c st.stack, st.trace⟩
  else
    let (second, s1) := if c = '_' ∨ c = '=' then ('_', st.stack) else pop st.stack
    let (first, s2) := pop s1
    if c = '_' then
      ⟨push second s2, st.trace ++ [.uminus first second]⟩
    else if c = '=' then
      let (temp, s3) := pop s2
      ⟨s3, st.trace ++ [.binary c first temp]⟩
    else
      ⟨push second s2, st.trace ++ [.binary c first second]⟩

/-- The third `for` loop: it stops at the first NUL of `postfixForm`. -/
def evalLoop (st : EvalState) (pf : List Char) : EvalState :=
  (pf.takeWhile fun c => c ≠ '\x00').foldl evalStep st

/-- The whole of `main` on the raw input `s`: the postfix string and the trace. -/
def run (s : List Char) : Option (List Char × List TraceLine) :=
  (convert (normalize s)).map fun st => (st.postfixForm, (evalLoop ⟨st.stack, []⟩ st.postfixForm).trace)

/-! ## Notions of the specification used to state the claims -/

/-- Operand characters of the specification: letters and digits. -/
def isOperand (c : Char) : Bool := c.isAlphanum

/-- Binary operators of the specification: `+ - * / % ^ =`. -/
def isBinaryOperator (c : Char) : Bool :=
  c = '+' || c = '-' || c = '*' || c = '/' || c = '%' || c = '^' || c = '='

/-- Parentheses are balanced when the nesting depth never drops below zero
and is zero at the end. -/
def balancedFrom : List Char → Nat → Bool
  | [], depth => depth == 0
  | c :: rest, depth =>
    if c = '(' then balancedFrom rest (depth + 1)
    else if c = ')' then depth != 0 && balancedFrom rest (depth - 1)
    else balancedFrom rest depth

/-- Balanced parentheses, from depth zero. -/
def balanced (s : List Char) : Bool := balancedFrom s 0

/-- Well-formed infix expression over single-character operands: primaries
(an operand, a parenthesised expression, or either of them after a `-` sign)
separated by binary operators. `expectOperand` tells whether a primary is due. -/
def wellFormedFrom : List Char → Bool → Nat → Bool
  | [], expectOperand, depth => !expectOperand && depth == 0
  | c :: rest, true, depth =>
    if isOperand c then wellFormedFrom rest false depth
    else if c = '(' then wellFormedFrom rest true (depth + 1)
    else if c = '-' then wellFormedFrom rest true depth
    else false
  | c :: rest, false, depth =>
    if isBinaryOperator c then wellFormedFrom rest true depth
    else if c = ')' then depth != 0 && wellFormedFrom rest false (depth - 1)
    else false

/-- Well-formed infix expression. -/
def wellFormedInfix (s : List Char) : Bool := wellFormedFrom s true 0

/-- Reading a postfix string left to right with `d` results available: the
marker `_` needs one result and leaves one, a binary operator needs two and
leaves one, a parenthesis is not allowed, any other character adds a result. -/
def postfixDepth : List Char → Nat → Option Nat
  | [], d => some d
  | c :: rest, d =>
    if c = '_' then (if 1 ≤ d then postfixDepth rest d else none)
    else if isBinaryOperator c then (if 2 ≤ d then postfixDepth rest (d - 1) else none)
    else if c = '(' ∨ c = ')' then none
    else postfixDepth rest (d + 1)

/-- A valid postfix sequence reduces to a single result. -/
def validPostfix (p : List Char) : Bool := postfixDepth p 0 == some 1

/-- The eleven tokens of the priority table of the specification. -/
def tableTokens : List Char := ['(', '_', '^', '%', '/', '*', '+', '-', ')', '=', '$']

/-- Size of each of `char stack[100]`, `char inputString[100]` and
`char postfixForm[100]`. A string of `n` characters takes `n + 1` cells of its
buffer, the last one for the terminating NUL. -/
def capacity : Nat := 100

/-- Cells of `inputString` written by `scanf("%s", inputString)` for the
expression `s`: one for each character and one more for the terminating NUL.
The call gives `scanf` no bound, so the cells are written whatever the size
of the array. -/
def scanfCells (s : List Char) : List Nat := List.range (s.length + 1)

/-- No `)` of the string is unmatched: reading from nesting depth `depth`,
each `)` finds the depth above zero. -/
def closesMatched : List Char → Nat → Bool
  | [], _ => true
  | c :: rest, depth =>
    if c = '(' then closesMatched rest (depth + 1)
    else if c = ')' then depth != 0 && closesMatched rest (depth - 1)
    else closesMatched rest depth

/-- Test for the last branch of the loop body of the conversion (the `else`
that follows the comparison `getPriority(inputString[i]) < getPriority(stack[top--])`):
the step for `c` in the state `st` reaches it. -/
def popsTwice (st : ConvState) (c : Char) : Bool :=
  match st.stack with
  | t :: _ :: _ =>
    isOperator c && t != '(' && c != '(' && c != ')' && c != '_' &&
      !decide (getPriority c < getPriority t)
  | _ => false

/-- The conversion of `s` from the state `st` takes the last branch of the
loop body at no step. -/
def neverPopsTwice : ConvState → List Char → Bool
  | _, [] => true
  | st, c :: rest =>
    !popsTwice st c &&
      match convStep st c with
      | some st1 => neverPopsTwice st1 rest
      | none => true

/-! ## The in-place loop and the left-to-right pass agree -/

theorem normalizeFrom_length (prev : Option Char) (s : List Char) :
    (normalizeFrom prev s).length = s.length := by
  induction s generalizing prev with
  | nil => rfl
  | cons c rest ih => simp [normalizeFrom, ih]

/-- The loop body at index `pre.length` of `pre ++ c :: rest`. -/
theorem normalizeStep_append (pre : List Char) (c : Char) (rest : List Char) :
    normalizeStep (pre ++ c :: rest) pre.length =
      pre ++ (if c = '-' ∧ pre.getLast?.all isOperator = true then '_' else c) :: rest := by
  unfold normalizeStep
  have h1 : (pre ++ c :: rest)[pre.length]? = some c := by
    rw [List.getElem?_append_right (Nat.le_refl _)]; simp
  have h2 : (pre.length = 0 ∨ ((pre ++ c :: rest)[pre.length - 1]?).any isOperator = true) ↔
      pre.getLast?.all isOperator = true := by
    rcases List.eq_nil_or_concat pre with rfl | ⟨pre1, d, rfl⟩
    · simp
    · have h3 : (pre1.concat d ++ c :: rest)[(pre1.concat d).length - 1]? = some d := by
        rw [List.getElem?_append_left (by simp)]; simp
      rw [h3]; simp
  rw [h1]
  by_cases hc : c = '-'
  · by_cases hp : pre.getLast?.all isOperator = true
    · rw [if_pos ⟨by rw [hc], h2.2 hp⟩, if_pos ⟨hc, hp⟩]
      simp
    · rw [if_neg (fun h => hp (h2.1 h.2)), if_neg (fun h => hp h.2)]
  · rw [if_neg (fun h => hc (Option.some.inj h.1)), if_neg (fun h => hc h.1)]

theorem foldl_normalizeStep (suf : List Char) : ∀ pre : List Char,
    (List.range' pre.length suf.length).foldl normalizeStep (pre ++ suf) =
      pre ++ normalizeFrom pre.getLast? suf := by
  induction suf with
  | nil => intro pre; simp [normalizeFrom]
  | cons c rest ih =>
    intro pre
    have h := ih (pre ++ [if c = '-' ∧ pre.getLast?.all isOperator = true then '_' else c])
    simp only [List.length_append, List.length_singleton, List.append_assoc,
      List.singleton_append, List.getLast?_concat] at h
    simp only [List.length_cons, List.range'_succ, List.foldl_cons, normalizeStep_append,
      normalizeFrom]
    exact h

/-- The in-place loop computes the left-to-right pass. -/
theorem normalize_eq_normalizeFrom (s : List Char) : normalize s = normalizeFrom none s := by
  have h := foldl_normalizeStep s []
  simpa [normalize, List.range_eq_range'] using h

theorem normalizeFrom_idem (s : List Char) : ∀ prev : Option Char,
    normalizeFrom prev (normalizeFrom prev s) = normalizeFrom prev s := by
  induction s with
  | nil => intro prev; rfl
  | cons c rest ih =>
    intro prev
    by_cases h : c = '-' ∧ prev.all isOperator = true
    · have hne : ¬ (('_' : Char) = '-' ∧ prev.all isOperator = true) := fun h1 => by
        have := h1.1; revert this; decide
      simp only [normalizeFrom, if_pos h, if_neg hne, ih]
    · simp only [normalizeFrom, if_neg h, ih]

/-- A `-` left by the pass is not at index 0 of the whole string and does not
follow a character on which `isOperator` holds. -/
theorem normalizeFrom_minus (s : List Char) : ∀ (prev : Option Char) (i : Nat),
    (normalizeFrom prev s)[i]? = some '-' →
      (i = 0 → prev.all isOperator = false) ∧
      (0 < i → ∃ c, (normalizeFrom prev s)[i - 1]? = some c ∧ isOperator c = false) := by
  induction s with
  | nil => intro prev i h; simp [normalizeFrom] at h
  | cons c rest ih =>
    intro prev i h
    cases i with
    | zero =>
      refine ⟨fun _ => ?_, fun h0 => absurd h0 (Nat.lt_irrefl 0)⟩
      by_cases hc : c = '-' ∧ prev.all isOperator = true
      · simp only [normalizeFrom, if_pos hc, List.getElem?_cons_zero, Option.some.injEq] at h
        exact absurd h (by decide)
      · simp only [normalizeFrom, if_neg hc, List.getElem?_cons_zero, Option.some.injEq] at h
        cases hp : prev.all isOperator
        · rfl
        · exact absurd ⟨h, hp⟩ hc
    | succ j =>
      refine ⟨fun h0 => absurd h0 (Nat.succ_ne_zero j), fun _ => ?_⟩
      simp only [normalizeFrom, List.getElem?_cons_succ] at h
      obtain ⟨h1, h2⟩ := ih _ j h
      cases j with
      | zero =>
        refine ⟨if c = '-' ∧ prev.all isOperator = true then '_' else c, ?_, ?_⟩
        · simp only [normalizeFrom, Nat.zero_add, Nat.sub_self, List.getElem?_cons_zero]
        · simpa using h1 rfl
      | succ k =>
        obtain ⟨d, hd, hop⟩ := h2 (Nat.succ_pos k)
        refine ⟨d, ?_, hop⟩
        simpa [normalizeFrom] using hd

/-- Every index of the pass: the character is kept unless it is `-` and is
first or follows an already rewritten character on which `isOperator` holds. -/
theorem normalizeFrom_getElem? (s : List Char) : ∀ (prev : Option Char) (i : Nat),
    (normalizeFrom prev s)[i]? = (s[i]?).map fun c =>
      if c = '-' ∧ (if i = 0 then prev else (normalizeFrom prev s)[i - 1]?).all isOperator = true
      then '_' else c := by
  induction s with
  | nil => intro prev i; simp [normalizeFrom]
  | cons c rest ih =>
    intro prev i
    cases i with
    | zero => simp [normalizeFrom]
    | succ j =>
      simp only [normalizeFrom, List.getElem?_cons_succ, Nat.add_sub_cancel]
      rw [ih]
      cases j with
      | zero => simp
      | succ k => simp

/-- What the first loop does at each index, for every input. -/
theorem normalize_getElem? (s : List Char) (i : Nat) :
    (normalize s)[i]? = (s[i]?).map fun c =>
      if c = '-' ∧ (i = 0 ∨ ((normalize s)[i - 1]?).any isOperator = true) then '_' else c := by
  rw [normalize_eq_normalizeFrom, normalizeFrom_getElem?]
  cases i with
  | zero => simp
  | succ j =>
    cases h : (normalizeFrom none s)[j]? with
    | some d => simp [h]
    | none =>
      have hlen : s.length ≤ j := by
        have := List.getElem?_eq_none_iff.1 h
        rwa [normalizeFrom_length] at this
      have hs : s[j + 1]? = none := List.getElem?_eq_none_iff.2 (Nat.le_succ_of_le hlen)
      simp [hs]

/-- What the last branch of the conversion does, for every state with at
least two stack elements `t` (top) and `u`: when the priority value of the
incoming operator is not below that of `t`, the element written is `u` and
both `t` and `u` leave the stack. -/
theorem convStep_not_less (c t u : Char) (below pf : List Char)
    (hop : isOperator c = true) (ht : t ≠ '(') (h1 : c ≠ '(') (h2 : c ≠ ')') (h3 : c ≠ '_')
    (hp : ¬ getPriority c < getPriority t) :
    convStep ⟨t :: u :: below, pf⟩ c = some ⟨c :: below, pf ++ [u]⟩ := by
  simp [convStep, hop, ht, h1, h2, h3, hp, push, pop]

/-- What the priority branch of the conversion does, for every state with at
least two stack elements: when the priority value of the incoming operator is
below that of the top `t`, the operator takes the place of `t` and nothing is
written. -/
theorem convStep_less (c t u : Char) (below pf : List Char)
    (hop : isOperator c = true) (ht : t ≠ '(') (h1 : c ≠ '(') (h2 : c ≠ ')') (h3 : c ≠ '_')
    (hp : getPriority c < getPriority t) :
    convStep ⟨t :: u :: below, pf⟩ c = some ⟨c :: u :: below, pf⟩ := by
  simp [convStep, hop, ht, h1, h2, h3, hp, push]

/-! ## Claims about normalisation -/

/-- C9: normalisation is idempotent, and in a normalised string every `-` is
at an index other than 0 and directly follows a character that `isOperator`
rejects. -/
theorem normalize_idempotent (s : List Char) :
    normalize (normalize s) = normalize s ∧
    ∀ i : Nat, (normalize s)[i]? = some '-' →
      i ≠ 0 ∧ ∃ c, (normalize s)[i - 1]? = some c ∧ isOperator c = false := by
  rw [normalize_eq_normalizeFrom (normalize s), normalize_eq_normalizeFrom s]
  refine ⟨normalizeFrom_idem s none, fun i h => ?_⟩
  obtain ⟨h1, h2⟩ := normalizeFrom_minus s none i h
  have hi : i ≠ 0 := fun h0 => by
    have := h1 h0
    simp at this
  exact ⟨hi, h2 (Nat.pos_of_ne_zero hi)⟩

/-! ## Claims about the conversion and the trace on given inputs -/

/-- C1: on the input `a+b*c` the program prints the postfix string `abc*`;
the `+` taken off the stack by the priority comparison is never written, so
the string `abc*+` is not produced. -/
theorem postfix_a_plus_b_times_c :
    normalize "a+b*c".toList = "a+b*c".toList ∧
    convLoop ⟨['$'], []⟩ "a+b".toList = some ⟨['+', '$'], "ab".toList⟩ ∧
    convStep ⟨['+', '$'], "ab".toList⟩ '*' = some ⟨['*', '$'], "ab".toList⟩ ∧
    postfixOf "a+b*c".toList = some "abc*".toList := by
  decide

/-- C2: on the input `a*b+c` the `+` arrives with `*` on top of `$`; its
priority value 6 is not below 5, and the loop body appends `$` (the element
beneath the old top, taken by a second pop) instead of `*`, leaving a stack of
depth one instead of two. The program prints `ab$c+`. -/
theorem convStep_not_less_a_times_b_plus_c :
    convLoop ⟨['$'], []⟩ "a*b".toList = some ⟨['*', '$'], "ab".toList⟩ ∧
    ¬ getPriority '+' < getPriority '*' ∧
    convStep ⟨['*', '$'], "ab".toList⟩ '+' = some ⟨['+'], "ab$".toList⟩ ∧
    postfixOf "a*b+c".toList = some "ab$c+".toList := by
  decide

/-- C3: the input `a+b*c` is a well-formed infix expression with balanced
parentheses, and the postfix string printed for it, `abc*`, is not a valid
postfix sequence: it leaves two results. -/
theorem postfix_not_valid_a_plus_b_times_c :
    wellFormedInfix "a+b*c".toList = true ∧ balanced "a+b*c".toList = true ∧
    postfixOf "a+b*c".toList = some "abc*".toList ∧
    postfixDepth "abc*".toList 0 = some 2 ∧ validPostfix "abc*".toList = false := by
  decide

/-- C4: on the input `(a+b)*c` the program prints the postfix string `ab+c*`. -/
theorem postfix_paren_a_plus_b_times_c :
    postfixOf "(a+b)*c".toList = some "ab+c*".toList := by
  decide

/-- C5: the input `(a)` has balanced parentheses and its conversion completes,
yet the postfix string printed is `a)(`: the `)` that arrives on a stack top
`(` is pushed, and the final drain writes both parentheses. -/
theorem postfix_has_parens_paren_a :
    balanced "(a)".toList = true ∧
    convLoop ⟨['$'], []⟩ "(a)".toList = some ⟨[')', '(', '$'], "a".toList⟩ ∧
    postfixOf "(a)".toList = some "a)(".toList ∧
    '(' ∈ "a)(".toList ∧ ')' ∈ "a)(".toList := by
  decide

/-- C6: on the input `-a+b` the first loop rewrites the leading `-` to the
marker `_`, and the postfix string printed is `_ab+`, not `a_b+`: the marker
is written when it is scanned, before its operand, because `isOperator` has
no case for `_` and the marker never goes through the operator stack. The
string `a_b+` is a valid postfix sequence and `_ab+` is not. -/
theorem postfix_minus_a_plus_b :
    normalize "-a+b".toList = "_a+b".toList ∧
    isOperator '_' = false ∧
    convStep ⟨['$'], []⟩ '_' = some ⟨['$'], ['_']⟩ ∧
    postfixOf "-a+b".toList = some "_ab+".toList ∧
    postfixOf "-a+b".toList ≠ some "a_b+".toList ∧
    validPostfix "_ab+".toList = false ∧ validPostfix "a_b+".toList = true := by
  decide

/-- C7: `isOperator` has no case for the marker `_`, so the third loop pushes
a marker like an operand, whatever the state, and prints nothing for it; on
the input `-a+b` the whole trace is the single line for `+` with `a` and `b`,
and no `Uminus` line is printed. -/
theorem evalStep_marker_is_pushed :
    isOperator '_' = false ∧
    (∀ st : EvalState, evalStep st '_' = ⟨push '_' st.stack, st.trace⟩) ∧
    run "-a+b".toList = some ("_ab+".toList, [TraceLine.binary '+' 'a' 'b']) := by
  refine ⟨by decide, fun st => rfl, by decide⟩

/-- C8: on the input `a=b+c` the `=` on the stack is taken off by the priority
comparison when `+` arrives and is never written; the postfix string printed
is `abc+`, and the trace is the single line for `+` with `b` and `c`: no line
for `=` is printed. -/
theorem trace_a_eq_b_plus_c :
    convLoop ⟨['$'], []⟩ "a=b".toList = some ⟨['=', '$'], "ab".toList⟩ ∧
    convStep ⟨['=', '$'], "ab".toList⟩ '+' = some ⟨['+', '$'], "ab".toList⟩ ∧
    run "a=b+c".toList = some ("abc+".toList, [TraceLine.binary '+' 'b' 'c']) := by
  decide

/-- C10: on the input `(a+b)-c` the `-` at index 5 follows `)`, on which
`isOperator` holds, and the first loop rewrites it to the marker `_`; the
string becomes `(a+b)_c` and the postfix string printed is `ab+_c`. -/
theorem normalize_minus_after_close_paren :
    isOperator ')' = true ∧
    "(a+b)-c".toList[5]? = some '-' ∧ "(a+b)-c".toList[4]? = some ')' ∧
    normalize "(a+b)-c".toList = "(a+b)_c".toList ∧
    postfixOf "(a+b)-c".toList = some "ab+_c".toList := by
  decide

/-! ## Claims about normalisation, the table and the stack primitives -/

/-- C11: normalisation keeps the length of the input, keeps every character
other than `-` in place, and turns a `-` into `-` or into the marker `_`. -/
theorem normalize_frame (s : List Char) :
    (normalize s).length = s.length ∧
    ∀ (i : Nat) (c : Char), s[i]? = some c →
      (c ≠ '-' → (normalize s)[i]? = some c) ∧
      (c = '-' → (normalize s)[i]? = some '-' ∨ (normalize s)[i]? = some '_') := by
  refine ⟨by rw [normalize_eq_normalizeFrom, normalizeFrom_length], fun i c h => ?_⟩
  rw [normalize_getElem?, h]
  refine ⟨fun hc => ?_, fun hc => ?_⟩
  · simp [hc]
  · subst hc
    by_cases hp : i = 0 ∨ ((normalize s)[i - 1]?).any isOperator = true
    · right; simp [hp]
    · left; simp [hp]

/-- C12: `getPriority` returns the table values 0 to 10 on the eleven tokens
`( _ ^ % / * + - ) = $`, is injective on them, and returns a value above 10
on every other character. -/
theorem getPriority_table :
    (getPriority '(' = 0 ∧ getPriority '_' = 1 ∧ getPriority '^' = 2 ∧ getPriority '%' = 3 ∧
      getPriority '/' = 4 ∧ getPriority '*' = 5 ∧ getPriority '+' = 6 ∧ getPriority '-' = 7 ∧
      getPriority ')' = 8 ∧ getPriority '=' = 9 ∧ getPriority '$' = 10) ∧
    (∀ x ∈ tableTokens, ∀ y ∈ tableTokens, getPriority x = getPriority y → x = y) ∧
    (∀ x : Char, x ∉ tableTokens → 10 < getPriority x) := by
  refine ⟨by decide, by decide, fun x hx => ?_⟩
  simp only [tableTokens, List.mem_cons, List.mem_singleton, List.not_mem_nil, or_false,
    not_or] at hx
  obtain ⟨h0, h1, h2, h3, h4, h5, h6, h7, h8, h9, h10⟩ := hx
  simp [getPriority, h0, h1, h2, h3, h4, h5, h6, h7, h8, h9, h10]

/-- C13: `pop` on the empty stack returns `$` and leaves the stack empty; on a
non-empty stack it returns the top element and removes exactly that element.
It is a total function. -/
theorem pop_total :
    pop [] = ('$', []) ∧ ∀ (x : Char) (rest : List Char), pop (x :: rest) = (x, rest) :=
  ⟨rfl, fun _ _ => rfl⟩

/-! ## Steps of the conversion -/

/-- The `)` loop ends exactly when a `(` is on the stack. -/
theorem popUntilParen_eq_none_iff (stack : List Char) : ∀ out : List Char,
    popUntilParen stack out = none ↔ '(' ∉ stack := by
  induction stack with
  | nil => intro out; simp [popUntilParen]
  | cons x rest ih =>
    intro out
    by_cases hx : x = '('
    · simp [popUntilParen, hx]
    · simp only [popUntilParen, if_neg hx, ih, List.mem_cons, not_or]
      exact ⟨fun h => ⟨fun h1 => hx h1.symm, h⟩, fun h => h.2⟩

/-- The `)` loop writes the elements above the topmost `(` from the top down,
removes that `(` and keeps what lies beneath. -/
theorem popUntilParen_append (above : List Char) : ∀ (beneath out : List Char),
    '(' ∉ above → popUntilParen (above ++ '(' :: beneath) out = some ⟨beneath, out ++ above⟩ := by
  induction above with
  | nil => intro beneath out _; simp [popUntilParen]
  | cons x rest ih =>
    intro beneath out h
    simp only [List.mem_cons, not_or] at h
    have hx : x ≠ '(' := fun h1 => h.1 h1.symm
    have h1 := ih beneath (out ++ [x]) h.2
    simp only [List.append_assoc, List.singleton_append] at h1
    simpa only [List.cons_append, popUntilParen, if_neg hx] using h1

/-- Every result of the `)` loop has the shape given by `popUntilParen_append`. -/
theorem popUntilParen_some (stack : List Char) : ∀ (out : List Char) (st1 : ConvState),
    popUntilParen stack out = some st1 →
      ∃ above beneath, stack = above ++ '(' :: beneath ∧ '(' ∉ above ∧
        st1 = ⟨beneath, out ++ above⟩ := by
  induction stack with
  | nil => intro out st1 h; simp [popUntilParen] at h
  | cons x rest ih =>
    intro out st1 h
    by_cases hx : x = '('
    · simp only [popUntilParen, if_pos hx, Option.some.injEq] at h
      exact ⟨[], rest, by simp [hx], by simp, by simp [← h]⟩
    · simp only [popUntilParen, if_neg hx] at h
      obtain ⟨above, beneath, h1, h2, h3⟩ := ih _ _ h
      refine ⟨x :: above, beneath, by simp [h1], ?_, by simp [h3]⟩
      simp only [List.mem_cons, not_or]
      exact ⟨fun h4 => hx h4.symm, h2⟩

/-- The five ways in which the loop body changes the state: a push, a
character written straight to the output, the `)` loop, the priority branch
that replaces the top, and the branch that pops twice. -/
theorem convStep_cases (st st1 : ConvState) (c : Char) (h : convStep st c = some st1) :
    (isOperator c = true ∧ st1 = ⟨c :: st.stack, st.postfixForm⟩) ∨
    (isOperator c = false ∧ st1 = ⟨st.stack, st.postfixForm ++ [c]⟩) ∨
    (c = ')' ∧ ∃ above beneath, st.stack = above ++ '(' :: beneath ∧ '(' ∉ above ∧
      st1 = ⟨beneath, st.postfixForm ++ above⟩) ∨
    (isOperator c = true ∧ c ≠ '(' ∧ ∃ t u below, st.stack = t :: u :: below ∧
      getPriority c < getPriority t ∧ st1 = ⟨c :: u :: below, st.postfixForm⟩) ∨
    (isOperator c = true ∧ c ≠ '(' ∧ ∃ t u below, st.stack = t :: u :: below ∧
      ¬ getPriority c < getPriority t ∧ st1 = ⟨c :: below, st.postfixForm ++ [u]⟩) := by
  obtain ⟨stack, pf⟩ := st
  unfold convStep at h
  by_cases hop : isOperator c = true
  · simp only [hop, if_true] at h
    by_cases h1 : stack.length ≤ 1 ∨ stack.head? = some '(' ∨ c = '('
    · simp only [if_pos h1, Option.some.injEq, push] at h
      exact Or.inl ⟨hop, h.symm⟩
    · simp only [if_neg h1] at h
      by_cases h2 : c = ')'
      · simp only [if_pos h2] at h
        obtain ⟨above, beneath, e1, e2, e3⟩ := popUntilParen_some _ _ _ h
        exact Or.inr (Or.inr (Or.inl ⟨h2, above, beneath, e1, e2, e3⟩))
      · simp only [if_neg h2] at h
        by_cases h3 : c = '_'
        · rw [h3] at hop; exact absurd hop (by decide)
        · simp only [if_neg h3] at h
          have hc : c ≠ '(' := fun hc => h1 (Or.inr (Or.inr hc))
          match stack, h1, h with
          | [], h1, _ => simp at h1
          | [t], h1, _ => simp at h1
          | t :: u :: below, _, h =>
            by_cases hp : getPriority c < getPriority t
            · simp only [if_pos hp, Option.some.injEq, push] at h
              exact Or.inr (Or.inr (Or.inr (Or.inl ⟨hop, hc, t, u, below, rfl, hp, h.symm⟩)))
            · simp only [if_neg hp, Option.some.injEq, push, pop] at h
              exact Or.inr (Or.inr (Or.inr (Or.inr ⟨hop, hc, t, u, below, rfl, hp, h.symm⟩)))
  · have hop1 : isOperator c = false := by simpa using hop
    simp only [hop1, Bool.false_eq_true, if_false, Option.some.injEq] at h
    exact Or.inr (Or.inl ⟨hop1, h.symm⟩)

/-- The loop body fails to end only in the `)` loop: on a `)` that meets a
stack of more than one element without `(`. -/
theorem convStep_eq_none_iff (st : ConvState) (c : Char) :
    convStep st c = none ↔ c = ')' ∧ 1 < st.stack.length ∧ '(' ∉ st.stack := by
  obtain ⟨stack, pf⟩ := st
  unfold convStep
  by_cases hop : isOperator c = true
  · simp only [hop, if_true]
    by_cases h1 : stack.length ≤ 1 ∨ stack.head? = some '(' ∨ c = '('
    · simp only [if_pos h1, reduceCtorEq, false_iff, not_and, not_lt]
      intro hc hlen hmem
      rcases h1 with h1 | h1 | h1
      · omega
      · cases stack with
        | nil => simp at h1
        | cons t below =>
          simp only [List.head?_cons, Option.some.injEq] at h1
          exact hmem (by simp [h1])
      · rw [hc] at h1; exact absurd h1 (by decide)
    · simp only [if_neg h1]
      have hlen : 1 < stack.length := by
        rcases Nat.lt_or_ge 1 stack.length with h | h
        · exact h
        · exact absurd (Or.inl h) h1
      by_cases h2 : c = ')'
      · rw [if_pos h2, popUntilParen_eq_none_iff]
        exact ⟨fun h => ⟨h2, hlen, h⟩, fun h => h.2.2⟩
      · simp only [if_neg h2]
        have h3 : c ≠ '_' := fun h3 => by rw [h3] at hop; exact absurd hop (by decide)
        simp only [if_neg h3, h2, false_and, iff_false]
        match stack, hlen with
        | t :: below, _ => by_cases hp : getPriority c < getPriority t <;> simp [hp]
  · have hop1 : isOperator c = false := by simpa using hop
    have hc : c ≠ ')' := fun hc => by rw [hc] at hop1; exact absurd hop1 (by decide)
    simp [hop1, hc]

/-- A binary operator of the specification is one of the characters that
reach the priority comparison. -/
theorem isBinaryOperator_spec (c : Char) (h : isBinaryOperator c = true) :
    isOperator c = true ∧ c ≠ '(' ∧ c ≠ ')' ∧ c ≠ '_' := by
  simp only [isBinaryOperator, Bool.or_eq_true, decide_eq_true_eq] at h
  rcases h with (((((h | h) | h) | h) | h) | h) | h <;> subst h <;> decide

/-- Elements of the stack after a loop body were on it before or are the
scanned character, which is then one that `isOperator` accepts. -/
theorem convStep_stack_mem (st st1 : ConvState) (c : Char) (h : convStep st c = some st1)
    (x : Char) (hx : x ∈ st1.stack) : x ∈ st.stack ∨ isOperator x = true := by
  rcases convStep_cases st st1 c h with ⟨hop, rfl⟩ | ⟨_, rfl⟩ |
    ⟨_, above, beneath, e, _, rfl⟩ | ⟨hop, _, t, u, below, e, _, rfl⟩ |
    ⟨hop, _, t, u, below, e, _, rfl⟩
  · rcases List.mem_cons.1 hx with rfl | hx
    · exact Or.inr hop
    · exact Or.inl hx
  · exact Or.inl hx
  · left; rw [e]; simp [show x ∈ beneath from hx]
  · rcases List.mem_cons.1 hx with rfl | hx
    · exact Or.inr hop
    · left; rw [e]; exact List.mem_cons_of_mem _ hx
  · rcases List.mem_cons.1 hx with rfl | hx
    · exact Or.inr hop
    · left; rw [e]; exact List.mem_cons_of_mem _ (List.mem_cons_of_mem _ hx)

theorem convLoop_stack_mem (s : List Char) : ∀ (st st1 : ConvState),
    convLoop st s = some st1 → ∀ x ∈ st1.stack, x ∈ st.stack ∨ isOperator x = true := by
  induction s with
  | nil =>
    intro st st1 h x hx
    simp only [convLoop, Option.some.injEq] at h
    exact Or.inl (h ▸ hx)
  | cons c rest ih =>
    intro st st1 h x hx
    simp only [convLoop, Option.bind_eq_some] at h
    obtain ⟨st2, h1, h2⟩ := h
    rcases ih st2 st1 h2 x hx with h3 | h3
    · exact convStep_stack_mem st st2 c h1 x h3
    · exact Or.inr h3

/-- The final drain leaves a part of the stack it started from. -/
theorem drain_stack_mem (stack : List Char) : ∀ (out : List Char) (x : Char),
    x ∈ (drain stack out).stack → x ∈ stack := by
  induction stack with
  | nil => intro out x hx; simp [drain] at hx
  | cons y rest ih =>
    intro out x hx
    by_cases hy : y = '$'
    · simp only [drain, if_pos hy] at hx
      exact List.mem_cons_of_mem _ hx
    · simp only [drain, if_neg hy] at hx
      exact List.mem_cons_of_mem _ (ih _ x hx)

/-! ## Claims about single steps of the conversion and of the trace -/

/-- C17: when a binary operator arrives, the stack holds more than one
element, its top `t` is not `(` and the priority value of the operator is
strictly below that of `t`, the operator takes the place of `t`: `t` is
removed without being written, the postfix buffer is unchanged and the stack
depth is unchanged. -/
theorem convStep_binary_less (st : ConvState) (c t : Char)
    (hc : isBinaryOperator c = true) (hlen : 1 < st.stack.length)
    (htop : st.stack.head? = some t) (ht : t ≠ '(')
    (hp : getPriority c < getPriority t) :
    convStep st c = some ⟨c :: st.stack.tail, st.postfixForm⟩ ∧
    (c :: st.stack.tail).length = st.stack.length := by
  obtain ⟨stack, pf⟩ := st
  obtain ⟨hop, h1, h2, h3⟩ := isBinaryOperator_spec c hc
  match stack, hlen, htop with
  | t1 :: u :: below, _, htop =>
    simp only [List.head?_cons, Option.some.injEq] at htop
    subst htop
    exact ⟨convStep_less c t1 u below pf hop ht h1 h2 h3 hp, by simp⟩

theorem convStep_binary_less_witness :
    convStep ⟨['+', '$'], ['a', 'b']⟩ '*' = some ⟨['*', '$'], ['a', 'b']⟩ ∧
    ['*', '$'].length = ['+', '$'].length :=
  convStep_binary_less ⟨['+', '$'], ['a', 'b']⟩ '*' '+' (by decide) (by decide) (by decide)
    (by decide) (by decide)

/-- C18: when the token is `)`, the stack holds more than one element, its top
is not `(` and some `(` is on the stack, the stack splits at its topmost `(`
into `above`, the `(` and `beneath`; the step writes `above` to the postfix
buffer from the top down, removes the `(` without writing it and leaves
`beneath` as the stack. -/
theorem convStep_close_paren (st : ConvState) (hlen : 1 < st.stack.length)
    (htop : st.stack.head? ≠ some '(') (hmem : '(' ∈ st.stack) :
    ∃ above beneath, st.stack = above ++ '(' :: beneath ∧ '(' ∉ above ∧
      convStep st ')' = some ⟨beneath, st.postfixForm ++ above⟩ := by
  have h3 : ¬ (st.stack.length ≤ 1 ∨ st.stack.head? = some '(' ∨ (')' : Char) = '(') := by
    intro h3
    rcases h3 with h3 | h3 | h3
    · omega
    · exact htop h3
    · exact absurd h3 (by decide)
  have h4 : isOperator ')' = true := by decide
  have h5 : convStep st ')' = popUntilParen st.stack st.postfixForm := by
    unfold convStep
    simp only [h4, if_true, if_neg h3]
  have hne : popUntilParen st.stack st.postfixForm ≠ none := fun h =>
    (popUntilParen_eq_none_iff _ _).1 h hmem
  obtain ⟨st1, h1⟩ := Option.ne_none_iff_exists'.1 hne
  obtain ⟨above, beneath, e, hab, e3⟩ := popUntilParen_some _ _ _ h1
  exact ⟨above, beneath, e, hab, by rw [h5, h1, e3]⟩

theorem convStep_close_paren_witness :
    ∃ above beneath, ['+', '(', '$'] = above ++ '(' :: beneath ∧ '(' ∉ above ∧
      convStep ⟨['+', '(', '$'], ['a', 'b']⟩ ')' = some ⟨beneath, ['a', 'b'] ++ above⟩ :=
  convStep_close_paren ⟨['+', '(', '$'], ['a', 'b']⟩ (by decide) (by decide) (by decide)

/-- C19: a marker `_` is written to the postfix buffer by the step that scans
it and that step leaves the stack as it is; after any scanned string (so after
any prefix of a normalised input), and after the final drain, the marker is
not an element of the stack. -/
theorem marker_never_on_stack :
    (∀ st : ConvState, convStep st '_' = some ⟨st.stack, st.postfixForm ++ ['_']⟩) ∧
    (∀ (pre : List Char) (st : ConvState),
      convLoop ⟨push '$' [], []⟩ pre = some st → '_' ∉ st.stack) ∧
    (∀ (s : List Char) (st : ConvState), convert s = some st → '_' ∉ st.stack) := by
  have key : ∀ (pre : List Char) (st : ConvState),
      convLoop ⟨push '$' [], []⟩ pre = some st → '_' ∉ st.stack := by
    intro pre st h hmem
    rcases convLoop_stack_mem pre _ st h '_' hmem with h1 | h1
    · simp [push] at h1
    · exact absurd h1 (by decide)
  refine ⟨fun st => rfl, key, fun s st h hmem => ?_⟩
  simp only [convert, Option.map_eq_some'] at h
  obtain ⟨st0, h0, rfl⟩ := h
  exact key s st0 h0 (drain_stack_mem _ _ _ hmem)

/-- C20: on a binary operator other than `=`, with `y` on top of `x` on the
value stack, the trace step prints one line with the operator, `x` as first
and `y` as second operand, and leaves the old stack without `x`, with `y`
still on top. -/
theorem evalStep_binary (c x y : Char) (rest : List Char) (tr : List TraceLine)
    (hc : isBinaryOperator c = true) (hne : c ≠ '=') :
    evalStep ⟨y :: x :: rest, tr⟩ c = ⟨y :: rest, tr ++ [TraceLine.binary c x y]⟩ ∧
    (y :: rest).length + 1 = (y :: x :: rest).length := by
  obtain ⟨hop, _, _, h3⟩ := isBinaryOperator_spec c hc
  refine ⟨?_, by simp⟩
  simp [evalStep, hop, h3, hne, pop, push]

theorem evalStep_binary_witness :
    evalStep ⟨['b', 'a'], []⟩ '+' = ⟨['b'], [] ++ [TraceLine.binary '+' 'a' 'b']⟩ ∧
    ['b'].length + 1 = ['b', 'a'].length :=
  evalStep_binary '+' 'a' 'b' [] [] (by decide) (by decide)

/-! ## Termination of the conversion -/

/-- The second loop ends from `st0` on `s` exactly when every `)` of `s` is
scanned on a stack of at most one element or on a stack that holds a `(`. -/
theorem convLoop_isSome_iff (s : List Char) : ∀ st0 : ConvState,
    (∃ st1, convLoop st0 s = some st1) ↔
      ∀ (pre rest : List Char) (st : ConvState), s = pre ++ ')' :: rest →
        convLoop st0 pre = some st → st.stack.length ≤ 1 ∨ '(' ∈ st.stack := by
  induction s with
  | nil =>
    intro st0
    refine ⟨fun _ pre rest st h => ?_, fun _ => ⟨st0, rfl⟩⟩
    simp at h
  | cons c s1 ih =>
    intro st0
    constructor
    · rintro ⟨st1, h⟩ pre rest st hs hpre
      simp only [convLoop, Option.bind_eq_some] at h
      obtain ⟨st2, h1, h2⟩ := h
      cases pre with
      | nil =>
        simp only [List.nil_append, List.cons.injEq] at hs
        simp only [convLoop, Option.some.injEq] at hpre
        subst hpre
        have hne : convStep st0 c ≠ none := by rw [h1]; simp
        rw [Ne, convStep_eq_none_iff] at hne
        by_cases hl : st0.stack.length ≤ 1
        · exact Or.inl hl
        · right
          by_contra hm
          exact hne ⟨hs.1, by omega, hm⟩
      | cons d pre1 =>
        simp only [List.cons_append, List.cons.injEq] at hs
        obtain ⟨rfl, hs⟩ := hs
        simp only [convLoop, Option.bind_eq_some] at hpre
        obtain ⟨st3, h3, h4⟩ := hpre
        rw [h1] at h3
        simp only [Option.some.injEq] at h3
        subst h3
        exact (ih st2).1 ⟨st1, h2⟩ pre1 rest st hs h4
    · intro h
      have hne : convStep st0 c ≠ none := by
        rw [Ne, convStep_eq_none_iff]
        rintro ⟨hc, hlen, hm⟩
        rcases h [] s1 st0 (by simp [hc]) rfl with h1 | h1
        · omega
        · exact hm h1
      obtain ⟨st2, h2⟩ := Option.ne_none_iff_exists'.1 hne
      have h3 := (ih st2).2 (fun pre rest st hs hpre =>
        h (c :: pre) rest st (by simp [hs]) (by simp [convLoop, h2, hpre]))
      obtain ⟨st1, h1⟩ := h3
      exact ⟨st1, by simp [convLoop, h2, h1]⟩

/-- C14 (as stated): on the input `a+b)` the conversion does not end: the `)`
is scanned with `+` on top of `$`, and the loop that pops until `(` never
meets one. -/
theorem convert_a_plus_b_close_diverges :
    normalize "a+b)".toList = "a+b)".toList ∧
    convLoop ⟨['$'], []⟩ "a+b".toList = some ⟨['+', '$'], "ab".toList⟩ ∧
    convStep ⟨['+', '$'], "ab".toList⟩ ')' = none ∧
    convert (normalize "a+b)".toList) = none := by
  decide

/-! ## Invariants of the conversion -/

/-- The loop body keeps the stack non-empty with a bottom element other
than `(`. -/
theorem convStep_bottom (st st1 : ConvState) (c : Char) (h : convStep st c = some st1)
    (hne : st.stack ≠ []) (hb : st.stack.getLast? ≠ some '(') :
    st1.stack ≠ [] ∧ st1.stack.getLast? ≠ some '(' := by
  obtain ⟨stack, pf⟩ := st
  simp only at hne hb
  rcases convStep_cases _ st1 c h with ⟨_, rfl⟩ | ⟨_, rfl⟩ |
    ⟨_, above, beneath, e, _, rfl⟩ | ⟨_, _, t, u, below, e, _, rfl⟩ |
    ⟨_, hc, t, u, below, e, _, rfl⟩
  · refine ⟨by simp, ?_⟩
    cases stack with
    | nil => exact absurd rfl hne
    | cons t below => simpa [List.getLast?_cons_cons] using hb
  · exact ⟨hne, hb⟩
  · simp only at e
    subst e
    cases beneath with
    | nil => simp at hb
    | cons b rest =>
      refine ⟨by simp, ?_⟩
      simpa [List.getLast?_append, List.getLast?_cons_cons] using hb
  · simp only at e
    subst e
    exact ⟨by simp, by simpa [List.getLast?_cons_cons] using hb⟩
  · simp only at e
    subst e
    refine ⟨by simp, ?_⟩
    cases below with
    | nil => simpa using hc
    | cons b rest => simpa [List.getLast?_cons_cons] using hb

/-- Between two token steps the operator stack is never empty. -/
theorem convLoop_stack_ne_nil (s : List Char) : ∀ (st st1 : ConvState),
    convLoop st s = some st1 → st.stack ≠ [] → st.stack.getLast? ≠ some '(' →
      st1.stack ≠ [] ∧ st1.stack.getLast? ≠ some '(' := by
  induction s with
  | nil =>
    intro st st1 h hne hb
    simp only [convLoop, Option.some.injEq] at h
    subst h
    exact ⟨hne, hb⟩
  | cons c rest ih =>
    intro st st1 h hne hb
    simp only [convLoop, Option.bind_eq_some] at h
    obtain ⟨st2, h1, h2⟩ := h
    obtain ⟨h3, h4⟩ := convStep_bottom st st2 c h1 hne hb
    exact ih st2 st1 h2 h3 h4

/-- C16: on the input `a*b+c` the stack after the scan of `a*b+` is the single
element `+`: the sentinel `$` that was its bottom element has been popped by
the step for `+` and written to the postfix buffer. -/
theorem sentinel_lost_a_times_b_plus :
    normalize "a*b+c".toList = "a*b+c".toList ∧
    convLoop ⟨push '$' [], []⟩ "a*b".toList = some ⟨['*', '$'], "ab".toList⟩ ∧
    convLoop ⟨push '$' [], []⟩ "a*b+".toList = some ⟨['+'], "ab$".toList⟩ ∧
    ['+'].getLast? ≠ some '$' := by
  decide

/-! ## Sizes of the stack and of the postfix buffer -/

/-- One loop body adds at most one to the number of cells in use (stack plus
postfix buffer); the count after `n` characters is at most `n + 1`, and at
most `n` once the sentinel has left the stack. -/
theorem convStep_size (st st1 : ConvState) (c : Char) (n : Nat) (h : convStep st c = some st1)
    (h1 : st.postfixForm.length + st.stack.length ≤ n + 1)
    (h2 : '$' ∉ st.stack → st.postfixForm.length + st.stack.length ≤ n) :
    st1.postfixForm.length + st1.stack.length ≤ n + 1 + 1 ∧
    ('$' ∉ st1.stack → st1.postfixForm.length + st1.stack.length ≤ n + 1) := by
  obtain ⟨stack, pf⟩ := st
  simp only at h1 h2
  rcases convStep_cases _ st1 c h with ⟨_, rfl⟩ | ⟨_, rfl⟩ |
    ⟨_, above, beneath, e, _, rfl⟩ | ⟨_, _, t, u, below, e, _, rfl⟩ |
    ⟨_, _, t, u, below, e, _, rfl⟩
  · refine ⟨by simp only [List.length_cons]; omega, fun hm => ?_⟩
    have := h2 (fun hm1 => hm (List.mem_cons_of_mem _ hm1))
    simp only [List.length_cons]; omega
  · refine ⟨by simp only [List.length_append, List.length_singleton]; omega, fun hm => ?_⟩
    have := h2 hm
    simp only [List.length_append, List.length_singleton]; omega
  · simp only at e
    subst e
    simp only [List.length_append, List.length_cons] at h1 ⊢
    exact ⟨by omega, fun _ => by omega⟩
  · simp only at e
    subst e
    simp only [List.length_cons] at h1 ⊢
    exact ⟨by omega, fun _ => by omega⟩
  · simp only at e
    subst e
    simp only [List.length_append, List.length_cons, List.length_nil] at h1 ⊢
    exact ⟨by omega, fun _ => by omega⟩

theorem convLoop_size (s : List Char) : ∀ (st st1 : ConvState) (n : Nat),
    convLoop st s = some st1 →
    st.postfixForm.length + st.stack.length ≤ n + 1 →
    ('$' ∉ st.stack → st.postfixForm.length + st.stack.length ≤ n) →
    st1.postfixForm.length + st1.stack.length ≤ n + s.length + 1 ∧
    ('$' ∉ st1.stack → st1.postfixForm.length + st1.stack.length ≤ n + s.length) := by
  induction s with
  | nil =>
    intro st st1 n h h1 h2
    simp only [convLoop, Option.some.injEq] at h
    subst h
    exact ⟨h1, h2⟩
  | cons c rest ih =>
    intro st st1 n h h1 h2
    simp only [convLoop, Option.bind_eq_some] at h
    obtain ⟨st2, e1, e2⟩ := h
    obtain ⟨h3, h4⟩ := convStep_size st st2 c n e1 h1 h2
    have h5 := ih st2 st1 (n + 1) e2 h3 h4
    simp only [List.length_cons]
    have e : n + (rest.length + 1) = n + 1 + rest.length := by omega
    rw [e]
    exact h5

/-- After scanning `pre` from the initial state, stack and postfix buffer
together hold at most `pre.length + 1` characters. -/
theorem convLoop_size_init (pre : List Char) (st : ConvState)
    (h : convLoop ⟨push '$' [], []⟩ pre = some st) :
    st.postfixForm.length + st.stack.length ≤ pre.length + 1 ∧
    ('$' ∉ st.stack → st.postfixForm.length + st.stack.length ≤ pre.length) := by
  have := convLoop_size pre _ st 0 h (by simp [push]) (by simp [push])
  simpa using this

/-- The final drain moves characters from the stack to the postfix buffer and
drops the sentinel when it meets it. -/
theorem drain_size (stack : List Char) : ∀ out : List Char,
    (drain stack out).postfixForm.length + (drain stack out).stack.length
      ≤ out.length + stack.length ∧
    ('$' ∈ stack → (drain stack out).postfixForm.length + (drain stack out).stack.length + 1
      ≤ out.length + stack.length) := by
  induction stack with
  | nil => intro out; simp [drain]
  | cons x rest ih =>
    intro out
    by_cases hx : x = '$'
    · simp only [drain, if_pos hx, List.length_cons]
      exact ⟨by omega, fun _ => by omega⟩
    · obtain ⟨h1, h2⟩ := ih (out ++ [x])
      simp only [List.length_append, List.length_singleton] at h1 h2
      simp only [drain, if_neg hx, List.length_cons]
      refine ⟨by omega, fun hm => ?_⟩
      have hm1 : '$' ∈ rest := by
        rcases List.mem_cons.1 hm with hm | hm
        · exact absurd hm.symm hx
        · exact hm
      have := h2 hm1
      omega

/-- The postfix string and the stack left by the conversion of `s` together
hold at most `s.length` characters. -/
theorem convert_size (s : List Char) (st : ConvState) (h : convert s = some st) :
    st.postfixForm.length + st.stack.length ≤ s.length := by
  simp only [convert, Option.map_eq_some'] at h
  obtain ⟨st0, h0, rfl⟩ := h
  obtain ⟨h1, h2⟩ := convLoop_size_init s st0 h0
  obtain ⟨h3, h4⟩ := drain_size st0.stack st0.postfixForm
  by_cases hm : '$' ∈ st0.stack
  · have := h4 hm
    omega
  · have := h2 hm
    omega

/-- One trace step puts at most one more element on the stack. -/
theorem evalStep_stack_length (st : EvalState) (c : Char) :
    (evalStep st c).stack.length ≤ st.stack.length + 1 := by
  obtain ⟨stack, tr⟩ := st
  unfold evalStep
  by_cases hop : isOperator c = true
  · have h3 : c ≠ '_' := fun h3 => by rw [h3] at hop; exact absurd hop (by decide)
    by_cases h4 : c = '='
    · subst h4
      rcases stack with _ | ⟨y, _ | ⟨x, rest⟩⟩
      · simp [pop, isOperator]
      · simp [pop, isOperator]
      · have e : (evalStep ⟨y :: x :: rest, tr⟩ '=').stack = rest := rfl
        unfold evalStep at e
        rw [e]
        simp only [List.length_cons]
        omega
    · rcases stack with _ | ⟨y, _ | ⟨x, rest⟩⟩ <;> simp [pop, push, hop, h3, h4]
  · have hop1 : isOperator c = false := by simpa using hop
    simp [hop1, push]

theorem foldl_evalStep_stack_length (l : List Char) : ∀ st : EvalState,
    (l.foldl evalStep st).stack.length ≤ st.stack.length + l.length := by
  induction l with
  | nil => intro st; simp
  | cons c rest ih =>
    intro st
    have h1 := ih (evalStep st c)
    have h2 := evalStep_stack_length st c
    simp only [List.foldl_cons, List.length_cons]
    omega

/-- The trace loop over `q` puts at most `q.length` more elements on the stack. -/
theorem evalLoop_stack_length (st : EvalState) (q : List Char) :
    (evalLoop st q).stack.length ≤ st.stack.length + q.length := by
  have h1 := foldl_evalStep_stack_length (q.takeWhile fun c => c ≠ '\x00') st
  have h2 : (q.takeWhile fun c => decide (c ≠ '\x00')).length ≤ q.length :=
    (List.takeWhile_sublist _).length_le
  unfold evalLoop
  omega

/-! ## Claims about the size of the buffers -/

/-- C15 (as stated): for an expression of 100 characters, one more than
`inputString` can hold with its NUL, `scanf` writes the cell of index 100,
which lies outside `inputString[0 .. 99]`: the expression is written beyond
the input buffer, and the program has no test that stands before that write. -/
theorem no_capacity_error :
    (List.replicate 100 'a').length = (capacity - 1) + 1 ∧
    capacity ∈ scanfCells (List.replicate 100 'a') ∧
    ¬ ∀ i ∈ scanfCells (List.replicate 100 'a'), i < capacity := by
  decide

/-- C15 (amended): for an expression that fits `inputString` with its NUL (at
most 99 characters), `scanf` writes inside `inputString`, every state between
two token steps holds at most 100 characters in stack and postfix buffer
together, and when the conversion is complete the postfix string fits
`postfixForm` with its NUL and the stack stays within 100 elements all along
the trace loop: no write leaves a buffer. For a longer expression `scanf`
writes the cell of index 100, outside `inputString`: nothing rejects it. -/
theorem within_capacity (s : List Char) :
    (s.length + 1 ≤ capacity →
      (∀ i ∈ scanfCells s, i < capacity) ∧
      (∀ (pre : List Char) (st : ConvState), pre <+: normalize s →
        convLoop ⟨push '$' [], []⟩ pre = some st →
        st.postfixForm.length + st.stack.length ≤ capacity) ∧
      (∀ st : ConvState, convert (normalize s) = some st →
        st.postfixForm.length + 1 ≤ capacity ∧
        ∀ q : List Char, q <+: st.postfixForm →
          (evalLoop ⟨st.stack, []⟩ q).stack.length ≤ capacity)) ∧
    (capacity < s.length + 1 → capacity ∈ scanfCells s) := by
  have hn : (normalize s).length = s.length := by
    rw [normalize_eq_normalizeFrom, normalizeFrom_length]
  refine ⟨fun hlen => ⟨fun i hi => ?_, fun pre st hpre h => ?_, fun st h => ?_⟩, fun hlen => ?_⟩
  · simp only [scanfCells, List.mem_range] at hi
    omega
  · have h1 := (convLoop_size_init pre st h).1
    have h2 := hpre.length_le
    omega
  · have h1 := convert_size (normalize s) st h
    refine ⟨by omega, fun q hq => ?_⟩
    have h2 := evalLoop_stack_length ⟨st.stack, []⟩ q
    have h3 := hq.length_le
    simp only at h2
    omega
  · simp only [scanfCells, List.mem_range]
    omega

theorem within_capacity_witness :
    ((∀ i ∈ scanfCells (List.replicate 99 'a'), i < capacity) ∧
      (∀ (pre : List Char) (st : ConvState), pre <+: normalize (List.replicate 99 'a') →
        convLoop ⟨push '$' [], []⟩ pre = some st →
        st.postfixForm.length + st.stack.length ≤ capacity) ∧
      (∀ st : ConvState, convert (normalize (List.replicate 99 'a')) = some st →
        st.postfixForm.length + 1 ≤ capacity ∧
        ∀ q : List Char, q <+: st.postfixForm →
          (evalLoop ⟨st.stack, []⟩ q).stack.length ≤ capacity)) ∧
    capacity ∈ scanfCells (List.replicate 100 'a') :=
  ⟨(within_capacity (List.replicate 99 'a')).1 (by decide),
    (within_capacity (List.replicate 100 'a')).2 (by decide)⟩

/-! ## The sentinel stays at the bottom -/

theorem mem_dropLast_cons (x c : Char) (l : List Char) (h : x ∈ (c :: l).dropLast) :
    x = c ∨ x ∈ l.dropLast := by
  cases l with
  | nil => simp at h
  | cons d rest => simpa [List.dropLast] using h

theorem mem_dropLast_of_cons (x c : Char) (l : List Char) (h : x ∈ l.dropLast) :
    x ∈ (c :: l).dropLast := by
  cases l with
  | nil => simp at h
  | cons d rest => simp only [List.dropLast]; exact List.mem_cons_of_mem _ h

theorem mem_dropLast_of_append (x : Char) (l1 l2 : List Char) (h : x ∈ l2.dropLast) :
    x ∈ (l1 ++ l2).dropLast := by
  induction l1 with
  | nil => simpa using h
  | cons c rest ih => exact mem_dropLast_of_cons x c _ ih

/-- The loop body never puts `$` above the bottom of the stack. -/
theorem convStep_sentinel (st st1 : ConvState) (c : Char) (h : convStep st c = some st1)
    (hs : '$' ∉ st.stack.dropLast) : '$' ∉ st1.stack.dropLast := by
  obtain ⟨stack, pf⟩ := st
  simp only at hs
  have hop : ∀ d : Char, isOperator d = true → '$' ≠ d := fun d hd e => by
    rw [← e] at hd; exact absurd hd (by decide)
  intro hm
  rcases convStep_cases _ st1 c h with ⟨h1, rfl⟩ | ⟨_, rfl⟩ |
    ⟨_, above, beneath, e, _, rfl⟩ | ⟨h1, _, t, u, below, e, _, rfl⟩ |
    ⟨h1, _, t, u, below, e, _, rfl⟩
  · rcases mem_dropLast_cons _ _ _ hm with h2 | h2
    · exact hop c h1 h2
    · exact hs h2
  · exact hs hm
  · simp only at e
    subst e
    exact hs (mem_dropLast_of_append _ above _ (mem_dropLast_of_cons _ '(' _ hm))
  · simp only at e
    subst e
    rcases mem_dropLast_cons _ _ _ hm with h2 | h2
    · exact hop c h1 h2
    · exact hs (mem_dropLast_of_cons _ t _ h2)
  · simp only at e
    subst e
    rcases mem_dropLast_cons _ _ _ hm with h2 | h2
    · exact hop c h1 h2
    · exact hs (mem_dropLast_of_cons _ t _ (mem_dropLast_of_cons _ u _ h2))

theorem convLoop_sentinel (s : List Char) : ∀ (st st1 : ConvState),
    convLoop st s = some st1 → '$' ∉ st.stack.dropLast → '$' ∉ st1.stack.dropLast := by
  induction s with
  | nil =>
    intro st st1 h hs
    simp only [convLoop, Option.some.injEq] at h
    subst h
    exact hs
  | cons c rest ih =>
    intro st st1 h hs
    simp only [convLoop, Option.bind_eq_some] at h
    obtain ⟨st2, h1, h2⟩ := h
    exact ih st2 st1 h2 (convStep_sentinel st st2 c h1 hs)

/-- The final drain empties a stack that has no `$` above its bottom. -/
theorem drain_stack_nil (stack : List Char) : ∀ out : List Char,
    '$' ∉ stack.dropLast → (drain stack out).stack = [] := by
  induction stack with
  | nil => intro out _; rfl
  | cons x rest ih =>
    intro out hs
    by_cases hx : x = '$'
    · simp only [drain, if_pos hx]
      cases rest with
      | nil => rfl
      | cons d rest1 =>
        exfalso
        apply hs
        simp [List.dropLast, hx]
    · simp only [drain, if_neg hx]
      exact ih _ (fun hm => hs (mem_dropLast_of_cons _ x _ hm))

/-- Whatever the string, a conversion that completes leaves the stack empty. -/
theorem convert_stack_nil (s : List Char) (st : ConvState) (h : convert s = some st) :
    st.stack = [] := by
  simp only [convert, Option.map_eq_some'] at h
  obtain ⟨st0, h0, rfl⟩ := h
  exact drain_stack_nil _ _ (convLoop_sentinel s _ st0 h0 (by simp [push]))

/-! ## Claims about the trace step for `=` and the end of the conversion -/

/-- C21: on `=`, with `y` on top of `x` on the value stack, the trace step
prints one line with `=`, `y` in the first-operand slot and `x` in the last
slot, removes both `x` and `y` from the stack and pushes nothing back. -/
theorem evalStep_assign (x y : Char) (rest : List Char) (tr : List TraceLine) :
    evalStep ⟨y :: x :: rest, tr⟩ '=' = ⟨rest, tr ++ [TraceLine.binary '=' y x]⟩ ∧
    rest.length + 2 = (y :: x :: rest).length :=
  ⟨rfl, rfl⟩

/-- C22: for every input on which the conversion completes, the stack is
empty when the final drain ends, so the trace loop starts from the empty
stack. -/
theorem convert_stack_empty (s : List Char) (st : ConvState)
    (h : convert (normalize s) = some st) :
    st.stack = [] ∧
    run s = some (st.postfixForm, (evalLoop ⟨[], []⟩ st.postfixForm).trace) := by
  have h1 := convert_stack_nil (normalize s) st h
  refine ⟨h1, ?_⟩
  simp only [run, h, Option.map_some', h1]

theorem convert_stack_empty_witness :
    convert (normalize "a*b+c".toList) = some ⟨[], "ab$c+".toList⟩ ∧
    ((⟨[], "ab$c+".toList⟩ : ConvState).stack = [] ∧
      run "a*b+c".toList = some ((⟨[], "ab$c+".toList⟩ : ConvState).postfixForm,
        (evalLoop ⟨[], []⟩ (⟨[], "ab$c+".toList⟩ : ConvState).postfixForm).trace)) :=
  ⟨by decide, convert_stack_empty "a*b+c".toList ⟨[], "ab$c+".toList⟩ (by decide)⟩

/-! ## Operands pass through in order -/

/-- No character accepted by `isOperator` is a letter or a digit. -/
theorem isOperand_of_isOperator (c : Char) (h : isOperator c = true) : isOperand c = false := by
  simp only [isOperator, Bool.or_eq_true, decide_eq_true_eq] at h
  rcases h with (((((((h | h) | h) | h) | h) | h) | h) | h) | h <;> subst h <;> decide

/-- The first loop leaves the letters and digits of the string as they are. -/
theorem normalizeFrom_filter (s : List Char) : ∀ prev : Option Char,
    (normalizeFrom prev s).filter isOperand = s.filter isOperand := by
  induction s with
  | nil => intro prev; rfl
  | cons c rest ih =>
    intro prev
    by_cases h : c = '-' ∧ prev.all isOperator = true
    · have h1 : isOperand '_' = false := by decide
      have h2 : isOperand c = false := by rw [h.1]; decide
      simp only [normalizeFrom, if_pos h, List.filter_cons, h1, h2, Bool.false_eq_true,
        if_false, ih]
    · simp only [normalizeFrom, if_neg h, List.filter_cons, ih]

/-- One loop body adds to the letters and digits of the postfix buffer the
scanned character when it is one, and nothing else; the stack keeps holding
no letter and no digit. -/
theorem convStep_operands (st st1 : ConvState) (c : Char) (h : convStep st c = some st1)
    (hs : ∀ x ∈ st.stack, isOperand x = false) :
    st1.postfixForm.filter isOperand = st.postfixForm.filter isOperand ++ [c].filter isOperand ∧
    ∀ x ∈ st1.stack, isOperand x = false := by
  have hs1 : ∀ x ∈ st1.stack, isOperand x = false := fun x hx => by
    rcases convStep_stack_mem st st1 c h x hx with h1 | h1
    · exact hs x h1
    · exact isOperand_of_isOperator x h1
  refine ⟨?_, hs1⟩
  obtain ⟨stack, pf⟩ := st
  simp only at hs
  rcases convStep_cases _ st1 c h with ⟨h1, rfl⟩ | ⟨_, rfl⟩ |
    ⟨hc, above, beneath, e, _, rfl⟩ | ⟨h1, _, t, u, below, e, _, rfl⟩ |
    ⟨h1, _, t, u, below, e, _, rfl⟩
  · simp [List.filter_cons, isOperand_of_isOperator c h1]
  · simp
  · simp only at e
    subst e
    have h2 : isOperand c = false := by rw [hc]; decide
    have h3 : above.filter isOperand = [] := by
      rw [List.filter_eq_nil_iff]
      intro x hx
      rw [hs x (by simp [hx])]
      simp
    simp [List.filter_cons, h2, h3]
  · simp [List.filter_cons, isOperand_of_isOperator c h1]
  · simp only at e
    subst e
    have h2 : isOperand u = false := hs u (by simp)
    simp [List.filter_cons, isOperand_of_isOperator c h1, h2]

theorem convLoop_operands (s : List Char) : ∀ (st st1 : ConvState),
    convLoop st s = some st1 → (∀ x ∈ st.stack, isOperand x = false) →
    st1.postfixForm.filter isOperand = st.postfixForm.filter isOperand ++ s.filter isOperand ∧
    ∀ x ∈ st1.stack, isOperand x = false := by
  induction s with
  | nil =>
    intro st st1 h hs
    simp only [convLoop, Option.some.injEq] at h
    subst h
    exact ⟨by simp, hs⟩
  | cons c rest ih =>
    intro st st1 h hs
    simp only [convLoop, Option.bind_eq_some] at h
    obtain ⟨st2, h1, h2⟩ := h
    obtain ⟨h3, h4⟩ := convStep_operands st st2 c h1 hs
    obtain ⟨h5, h6⟩ := ih st2 st1 h2 h4
    refine ⟨?_, h6⟩
    rw [h5, h3, List.append_assoc, ← List.filter_append, List.singleton_append]

/-- The final drain writes no letter and no digit. -/
theorem drain_operands (stack : List Char) : ∀ out : List Char,
    (∀ x ∈ stack, isOperand x = false) →
    (drain stack out).postfixForm.filter isOperand = out.filter isOperand := by
  induction stack with
  | nil => intro out _; rfl
  | cons x rest ih =>
    intro out hs
    by_cases hx : x = '$'
    · simp only [drain, if_pos hx]
    · simp only [drain, if_neg hx]
      rw [ih _ (fun y hy => hs y (List.mem_cons_of_mem _ hy))]
      simp [List.filter_cons, hs x (by simp)]

/-! ## Claims about operands and lengths -/

/-- C23: for every input on which the conversion completes, the letters and
digits of the postfix string are the letters and digits of the input, in the
same order and the same number. -/
theorem postfix_operands (s : List Char) (st : ConvState)
    (h : convert (normalize s) = some st) :
    st.postfixForm.filter isOperand = s.filter isOperand := by
  simp only [convert, Option.map_eq_some'] at h
  obtain ⟨st0, h0, rfl⟩ := h
  have hinit : ∀ x ∈ (⟨push '$' [], []⟩ : ConvState).stack, isOperand x = false := by
    intro x hx
    simp only [push, List.mem_singleton] at hx
    subst hx
    decide
  obtain ⟨h1, h2⟩ := convLoop_operands (normalize s) _ st0 h0 hinit
  rw [drain_operands _ _ h2, h1, normalize_eq_normalizeFrom, normalizeFrom_filter]
  simp

theorem postfix_operands_witness :
    convert (normalize "-a*(b+1)".toList) = some ⟨[], "_ab1+*".toList⟩ ∧
    (⟨[], "_ab1+*".toList⟩ : ConvState).postfixForm.filter isOperand =
      "-a*(b+1)".toList.filter isOperand :=
  ⟨by decide, postfix_operands "-a*(b+1)".toList ⟨[], "_ab1+*".toList⟩ (by decide)⟩

/-- C24: for every input on which the conversion completes, the postfix string
is no longer than the input, the stack after any scanned prefix holds at most
one element more than the prefix has characters, and so an input that fits a
buffer of `n` cells with its NUL yields a postfix string that fits `n` cells
with its NUL and a stack of at most `n` elements. -/
theorem postfix_length_le (s : List Char) (st : ConvState)
    (h : convert (normalize s) = some st) :
    st.postfixForm.length ≤ s.length ∧
    (∀ (pre : List Char) (st1 : ConvState), pre <+: normalize s →
      convLoop ⟨push '$' [], []⟩ pre = some st1 → st1.stack.length ≤ pre.length + 1) ∧
    (∀ n : Nat, s.length + 1 ≤ n →
      st.postfixForm.length + 1 ≤ n ∧
      ∀ (pre : List Char) (st1 : ConvState), pre <+: normalize s →
        convLoop ⟨push '$' [], []⟩ pre = some st1 → st1.stack.length ≤ n) := by
  have hn : (normalize s).length = s.length := by
    rw [normalize_eq_normalizeFrom, normalizeFrom_length]
  have h1 := convert_size (normalize s) st h
  have h2 : ∀ (pre : List Char) (st1 : ConvState),
      convLoop ⟨push '$' [], []⟩ pre = some st1 → st1.stack.length ≤ pre.length + 1 :=
    fun pre st1 hp => by
      have := (convLoop_size_init pre st1 hp).1
      omega
  refine ⟨by omega, fun pre st1 _ hp => h2 pre st1 hp, fun n hlen => ⟨by omega, ?_⟩⟩
  intro pre st1 hpre hp
  have h3 := h2 pre st1 hp
  have h4 := hpre.length_le
  omega

theorem postfix_length_le_witness :
    convert (normalize "(a+b)*c".toList) = some ⟨[], "ab+c*".toList⟩ ∧
    ((⟨[], "ab+c*".toList⟩ : ConvState).postfixForm.length ≤ "(a+b)*c".toList.length ∧
    (∀ (pre : List Char) (st1 : ConvState), pre <+: normalize "(a+b)*c".toList →
      convLoop ⟨push '$' [], []⟩ pre = some st1 → st1.stack.length ≤ pre.length + 1) ∧
    (∀ n : Nat, "(a+b)*c".toList.length + 1 ≤ n →
      (⟨[], "ab+c*".toList⟩ : ConvState).postfixForm.length + 1 ≤ n ∧
      ∀ (pre : List Char) (st1 : ConvState), pre <+: normalize "(a+b)*c".toList →
        convLoop ⟨push '$' [], []⟩ pre = some st1 → st1.stack.length ≤ n)) :=
  ⟨by decide, postfix_length_le "(a+b)*c".toList ⟨[], "ab+c*".toList⟩ (by decide)⟩

/-! ## Termination for expressions that fit the input buffer -/

/-- The first loop writes no character other than the marker `_`. -/
theorem normalizeFrom_mem (s : List Char) : ∀ (prev : Option Char) (x : Char),
    x ∈ normalizeFrom prev s → x ∈ s ∨ x = '_' := by
  induction s with
  | nil => intro prev x h; simp [normalizeFrom] at h
  | cons c rest ih =>
    intro prev x h
    simp only [normalizeFrom, List.mem_cons] at h
    rcases h with h | h
    · by_cases hc : c = '-' ∧ prev.all isOperator = true
      · rw [if_pos hc] at h; exact Or.inr h
      · rw [if_neg hc] at h; exact Or.inl (by simp [h])
    · rcases ih _ x h with h1 | h1
      · exact Or.inl (List.mem_cons_of_mem _ h1)
      · exact Or.inr h1

/-- The first loop leaves the parentheses of the string as they are. -/
theorem closesMatched_normalizeFrom (s : List Char) : ∀ (prev : Option Char) (d : Nat),
    closesMatched (normalizeFrom prev s) d = closesMatched s d := by
  induction s with
  | nil => intro prev d; rfl
  | cons c rest ih =>
    intro prev d
    by_cases hc : c = '-' ∧ prev.all isOperator = true
    · have h1 : c ≠ '(' := by rw [hc.1]; decide
      have h2 : c ≠ ')' := by rw [hc.1]; decide
      have h3 : ('_' : Char) ≠ '(' := by decide
      have h4 : ('_' : Char) ≠ ')' := by decide
      simp only [normalizeFrom, if_pos hc, closesMatched, if_neg h1, if_neg h2, if_neg h3,
        if_neg h4, ih]
    · simp only [normalizeFrom, if_neg hc, closesMatched, ih]

/-- A loop body that does not take its last branch removes a `(` from the
stack only when the scanned character is `)`, and keeps the `(` it scans. -/
theorem convStep_count_paren (st st1 : ConvState) (c : Char) (h : convStep st c = some st1)
    (hp : popsTwice st c = false) :
    st.stack.count '(' + (if c = '(' then 1 else 0)
      ≤ st1.stack.count '(' + (if c = ')' then 1 else 0) := by
  obtain ⟨stack, pf⟩ := st
  unfold convStep at h
  by_cases hop : isOperator c = true
  · simp only [hop, if_true] at h
    by_cases h1 : stack.length ≤ 1 ∨ stack.head? = some '(' ∨ c = '('
    · simp only [if_pos h1, Option.some.injEq, push] at h
      subst h
      by_cases hc : c = '('
      · simp [hc]
      · simp only [if_neg hc, List.count_cons]
        have hc1 : (c == '(') = false := by simpa using hc
        simp only [hc1, Bool.false_eq_true, if_false]
        omega
    · simp only [if_neg h1] at h
      by_cases h2 : c = ')'
      · simp only [if_pos h2] at h
        obtain ⟨above, beneath, e1, e2, e3⟩ := popUntilParen_some _ _ _ h
        subst e3
        subst e1
        have h3 : above.count '(' = 0 := List.count_eq_zero_of_not_mem e2
        have h4 : c ≠ '(' := by rw [h2]; decide
        simp only [if_neg h4, if_pos h2, List.count_append, List.count_cons_self, h3]
        omega
      · simp only [if_neg h2] at h
        have h3 : c ≠ '_' := fun h3 => by rw [h3] at hop; exact absurd hop (by decide)
        have hc : c ≠ '(' := fun hc => h1 (Or.inr (Or.inr hc))
        simp only [if_neg h3] at h
        match stack, h1, h, hp with
        | [], h1, _, _ => simp at h1
        | [t], h1, _, _ => simp at h1
        | t :: u :: below, h1, h, hp =>
          have ht : t ≠ '(' := fun ht => h1 (Or.inr (Or.inl (by simp [ht])))
          by_cases hlt : getPriority c < getPriority t
          · simp only [if_pos hlt, Option.some.injEq, push] at h
            subst h
            have hc1 : (c == '(') = false := by simpa using hc
            have ht1 : (t == '(') = false := by simpa using ht
            simp only [if_neg hc, if_neg h2, List.count_cons, hc1, ht1, Bool.false_eq_true,
              if_false]
            omega
          · exfalso
            simp [popsTwice, hop, ht, hc, h2, h3, hlt] at hp
  · have hop1 : isOperator c = false := by simpa using hop
    simp only [hop1, Bool.false_eq_true, if_false, Option.some.injEq] at h
    subst h
    have h1 : c ≠ '(' := fun h1 => by rw [h1] at hop1; exact absurd hop1 (by decide)
    have h2 : c ≠ ')' := fun h2 => by rw [h2] at hop1; exact absurd hop1 (by decide)
    simp [h1, h2]

/-- The second loop ends on a string without unmatched `)` when it starts
with enough `(` on the stack and never takes the last branch of its body. -/
theorem convLoop_of_closesMatched (s : List Char) : ∀ (st : ConvState) (d : Nat),
    closesMatched s d = true → d ≤ st.stack.count '(' → neverPopsTwice st s = true →
    ∃ st1, convLoop st s = some st1 := by
  induction s with
  | nil => intro st d _ _ _; exact ⟨st, rfl⟩
  | cons c rest ih =>
    intro st d hm hd hn
    simp only [neverPopsTwice, Bool.and_eq_true, Bool.not_eq_true'] at hn
    obtain ⟨hp, hn1⟩ := hn
    have hne : convStep st c ≠ none := by
      rw [Ne, convStep_eq_none_iff]
      rintro ⟨hc, _, hmem⟩
      have h0 : (')' : Char) ≠ '(' := by decide
      subst hc
      simp only [closesMatched, if_neg h0, if_true, Bool.and_eq_true, bne_iff_ne, ne_eq] at hm
      have h1 : st.stack.count '(' = 0 := List.count_eq_zero_of_not_mem hmem
      have h3 := hm.1
      omega
    obtain ⟨st2, h2⟩ := Option.ne_none_iff_exists'.1 hne
    rw [h2] at hn1
    simp only at hn1
    have hcount := convStep_count_paren st st2 c h2 hp
    have hrest : ∃ d1, closesMatched rest d1 = true ∧ d1 ≤ st2.stack.count '(' := by
      by_cases hc1 : c = '('
      · have h0 : c ≠ ')' := by rw [hc1]; decide
        simp only [closesMatched, if_pos hc1] at hm
        simp only [if_pos hc1, if_neg h0] at hcount
        exact ⟨d + 1, hm, by omega⟩
      · by_cases hc2 : c = ')'
        · simp only [closesMatched, if_neg hc1, if_pos hc2, Bool.and_eq_true, bne_iff_ne,
            ne_eq] at hm
          simp only [if_neg hc1, if_pos hc2] at hcount
          exact ⟨d - 1, hm.2, by omega⟩
        · simp only [closesMatched, if_neg hc1, if_neg hc2] at hm
          simp only [if_neg hc1, if_neg hc2] at hcount
          exact ⟨d, hm, by omega⟩
    obtain ⟨d1, hm1, hd1⟩ := hrest
    obtain ⟨st1, h1⟩ := ih st2 d1 hm1 hd1 hn1
    exact ⟨st1, by simp [convLoop, h2, h1]⟩

/-- C14 (amended): for every expression that fits `inputString` with its NUL
(at most 99 characters), stack and postfix buffer stay within their 100 cells
between token steps, and the conversion ends with a postfix string that fits
`postfixForm` with its NUL (a) when the expression contains no `)`, whatever
its unmatched `(` or stray operators, and (b) when no `)` of the expression is
unmatched and the conversion takes the last branch of its loop body at no
step. -/
theorem convert_terminates (s : List Char) (hlen : s.length + 1 ≤ capacity) :
    (')' ∉ s →
      ∃ st, convert (normalize s) = some st ∧ st.postfixForm.length + 1 ≤ capacity) ∧
    (closesMatched s 0 = true → neverPopsTwice ⟨push '$' [], []⟩ (normalize s) = true →
      ∃ st, convert (normalize s) = some st ∧ st.postfixForm.length + 1 ≤ capacity) ∧
    (∀ (pre : List Char) (st : ConvState), pre <+: normalize s →
      convLoop ⟨push '$' [], []⟩ pre = some st →
      st.postfixForm.length + st.stack.length ≤ capacity) := by
  have hn : (normalize s).length = s.length := by
    rw [normalize_eq_normalizeFrom, normalizeFrom_length]
  have key : (∃ st1, convLoop ⟨push '$' [], []⟩ (normalize s) = some st1) →
      ∃ st, convert (normalize s) = some st ∧ st.postfixForm.length + 1 ≤ capacity := by
    rintro ⟨st1, h1⟩
    have h2 : convert (normalize s) = some (drain st1.stack st1.postfixForm) := by
      simp [convert, h1]
    have h3 := convert_size (normalize s) _ h2
    exact ⟨_, h2, by omega⟩
  refine ⟨fun hs => key ?_, fun hm hp => key ?_, fun pre st hpre h => ?_⟩
  · refine (convLoop_isSome_iff (normalize s) _).2 (fun pre rest st e _ => ?_)
    exfalso
    have h1 : ')' ∈ normalize s := by rw [e]; simp
    rw [normalize_eq_normalizeFrom] at h1
    rcases normalizeFrom_mem s none ')' h1 with h2 | h2
    · exact hs h2
    · exact absurd h2 (by decide)
  · have hm1 : closesMatched (normalize s) 0 = true := by
      rw [normalize_eq_normalizeFrom, closesMatched_normalizeFrom]; exact hm
    exact convLoop_of_closesMatched (normalize s) _ 0 hm1 (Nat.zero_le _) hp
  · have h1 := (convLoop_size_init pre st h).1
    have h2 := hpre.length_le
    omega

theorem convert_terminates_witness :
    (∃ st, convert (normalize "a+(b".toList) = some st ∧
      st.postfixForm.length + 1 ≤ capacity) ∧
    (∃ st, convert (normalize "(a+b)*c".toList) = some st ∧
      st.postfixForm.length + 1 ≤ capacity) :=
  ⟨(convert_terminates "a+(b".toList (by decide)).1 (by decide),
    (convert_terminates "(a+b)*c".toList (by decide)).2.1 (by decide) (by decide)⟩

end CPreprocessor
